import Mathlib

/-!
# A thread pool with a resizable worker set (`src/main.cpp`)

The class `ThreadPool` owns a vector of threads, a FIFO queue of tasks, one mutex, one
condition variable and one flag `stop`.  A worker thread repeats: take the mutex, wait until
`stop || !tasks.empty()`, return if `stop && tasks.empty()`, otherwise pop the head of the
queue, release the mutex and call the task.

The embedding is an interleaving model.  Every block of code that runs with the mutex held is
one atomic step, and so is the call `task()`.  A schedule lists which thread moves next.  The
condition variable is modelled by its predicate: a waiting worker can move exactly when
`stop || !tasks.empty()` holds (the predicate is tested under the mutex and `stop` is set under
the mutex, so no wake-up is lost, and a spurious wake-up tests the predicate again).

Four fields of the state are bookkeeping that the C++ object does not store: `submitted` (the
tasks in the order `enqueue` pushed them), `claimed` (the tasks in the order they were popped),
`executed` (the tasks in the order `task()` was called) and `nextTid` (the source of the
identities `tid`: every started thread of execution gets a number of its own, so that two
records hold the same thread exactly when their `tid` agree; it is not `std::thread::id`).

Conventions of the model.
* A task is called in one step and either completes or throws; what it does otherwise is not
  looked at.
* The lambda of a worker has no `try`, so an exception of `task()` leaves the thread function
  (`std::terminate`).  The worker is then `Aborted` and moves no more.  The other threads are
  left free to move, which only adds behaviours; a join loop is never through once a worker is
  `Aborted`.
* A loop that starts threads (lines 26, 71, 97) is one step and the new threads make their
  first step after it.  A step of a new thread touches the queue, the logs and its own record,
  the later iterations of the loop touch other records, so the two commute and every real
  interleaving reaches the same states.
* One thread at a time calls `setNumThreads` or the destructor; other callers may `enqueue`
  while `setNumThreads` waits in its join loop.
-/

namespace TPool

/-! ## The state -/

/-- A task is a `std::function<void()>`.  The pool never looks inside it; the model keeps an
identity and whether the call throws. -/
structure Task where
  id : Nat
  raises : Bool
deriving DecidableEq, Repr

/-- Where a worker thread stands in its lambda (lines 27-41).
`Waiting`: at the top of the loop, in or before `condition.wait` (line 32).
`Holding t`: it popped `t` (lines 36-37), released the mutex, and is about to call it (line 39).
`Returned`: it executed `return` (line 34).
`Aborted`: an exception left the thread function; there is no handler in the lambda. -/
inductive Status where
  | Waiting : Status
  | Holding : Task → Status
  | Returned : Status
  | Aborted : Status
deriving DecidableEq, Repr

/-- One element of `threads`: a started thread and its identity. -/
structure Worker where
  tid : Nat
  status : Status
deriving DecidableEq, Repr

/-- The members of `class ThreadPool` (lines 118-122) and the four bookkeeping fields. -/
structure ThreadPool where
  threads : List Worker
  tasks : List Task
  stop : Bool
  submitted : List Task
  claimed : List Task
  executed : List Task
  nextTid : Nat
deriving DecidableEq, Repr

/-! ## The operations of the class -/

/-- Lines 24 and 68: `std::max(1, std::min(numThreads, 100))`. -/
def clamp (numThreads : Int) : Nat :=
  (max 1 (min numThreads 100)).toNat

/-- One `threads.emplace_back([this]() {...})` (lines 27 and 72): a new thread, at the end of
the vector, at the top of its loop. -/
def ThreadPool.spawn (p : ThreadPool) : ThreadPool :=
  { p with threads := p.threads ++ [⟨p.nextTid, Status.Waiting⟩], nextTid := p.nextTid + 1 }

/-- The loops of lines 26 and 71: `n` iterations of `emplace_back`. -/
def ThreadPool.spawnN : Nat → ThreadPool → ThreadPool
  | 0, p => p
  | n + 1, p => ThreadPool.spawnN n p.spawn

/-- The constructor (lines 23-43): `stop(false)`, empty vector and queue, then `numThreads`
threads after the clamp. -/
def ThreadPool.construct (numThreads : Int) : ThreadPool :=
  ThreadPool.spawnN (clamp numThreads)
    { threads := [], tasks := [], stop := false, submitted := [], claimed := [], executed := [],
      nextTid := 0 }

/-- The member `enqueue` (lines 57-64): `tasks.emplace(task)` under the mutex. -/
def ThreadPool.enqueue (p : ThreadPool) (task : Task) : ThreadPool :=
  { p with tasks := p.tasks ++ [task], submitted := p.submitted ++ [task] }

/-- The status of a worker after `task()` (line 39): back to the top of the loop, or out of the
thread function with the exception. -/
def afterCall (t : Task) : Status :=
  if t.raises then Status.Aborted else Status.Waiting

/-- The next atomic step of the thread at index `i`, `none` when it cannot move.
From `Waiting` (lines 31-38): blocked unless `stop || !tasks.empty()`; then `return` when
`stop && tasks.empty()`, else `tasks.front()` is moved out and popped.
From `Holding t` (line 39): `task()` is called. -/
def ThreadPool.workerStep (p : ThreadPool) (i : Nat) : Option ThreadPool :=
  match p.threads[i]? with
  | none => none
  | some w =>
    match w.status with
    | Status.Waiting =>
      if p.stop || !p.tasks.isEmpty then
        if p.stop && p.tasks.isEmpty then
          some { p with threads := p.threads.set i { w with status := Status.Returned } }
        else
          match p.tasks with
          | [] => none
          | t :: rest =>
            some { p with
              tasks := rest
              claimed := p.claimed ++ [t]
              threads := p.threads.set i { w with status := Status.Holding t } }
      else none
    | Status.Holding t =>
      some { p with
        executed := p.executed ++ [t]
        threads := p.threads.set i { w with status := afterCall t } }
    | Status.Returned => none
    | Status.Aborted => none

/-- What can happen while a caller is blocked in `join`: another caller completes an `enqueue`,
or a worker takes a step. -/
inductive Event where
  | enq : Task → Event
  | work : Nat → Event
deriving DecidableEq, Repr

/-- One event.  A `work i` for a thread that cannot move leaves the state as it is. -/
def ThreadPool.step (p : ThreadPool) : Event → ThreadPool
  | Event.enq t => p.enqueue t
  | Event.work i => (p.workerStep i).getD p

/-- A schedule, event after event. -/
def ThreadPool.run (p : ThreadPool) (sched : List Event) : ThreadPool :=
  sched.foldl ThreadPool.step p

/-- The tasks a schedule submits, in order. -/
def enqueued : List Event → List Task
  | [] => []
  | Event.enq t :: es => t :: enqueued es
  | Event.work _ :: es => enqueued es

/-- Every thread of the vector has executed its `return`. -/
def ThreadPool.allReturned (p : ThreadPool) : Bool :=
  p.threads.all (fun w => decide (w.status = Status.Returned))

/-- The loops `for (auto& thread : threads) thread.join();` (lines 51-53 and 92-94).  `join`
returns only for a thread that has returned, and a returned thread moves no more, so the loop
is through exactly in a state where every thread has returned; before that the caller is
blocked (`none`). -/
def ThreadPool.joinAll (p : ThreadPool) : Option ThreadPool :=
  if p.allReturned then some p else none

/-- The destructor (lines 45-54): `stop = true` under the mutex, `notify_all`, then the join
loop, during which the workers move as `sched` says (indices of the threads that move; no
caller submits any more). -/
def ThreadPool.destructor (p : ThreadPool) (sched : List Nat) : Option ThreadPool :=
  ({ p with stop := true }.run (sched.map Event.work)).joinAll

/-- Line 89: `stop = true`, still under the mutex taken at line 67. -/
def ThreadPool.shrinkStop (p : ThreadPool) : ThreadPool :=
  { p with stop := true }

/-- Line 95: `threads.erase(threads.begin() + numThreads, threads.end())`. -/
def ThreadPool.shrinkErase (p : ThreadPool) (numThreads : Nat) : ThreadPool :=
  { p with threads := p.threads.take numThreads }

/-- Line 96: `stop = false`. -/
def ThreadPool.shrinkClear (p : ThreadPool) : ThreadPool :=
  { p with stop := false }

/-- The loop of lines 97-113 over a vector: every element is assigned a newly started thread. -/
def restart : List Worker → Nat → List Worker
  | [], _ => []
  | _ :: ws, tid => ⟨tid, Status.Waiting⟩ :: restart ws (tid + 1)

/-- Lines 97-113: `for (auto& thread : threads) thread = std::thread(...)`. -/
def ThreadPool.shrinkRestart (p : ThreadPool) : ThreadPool :=
  { p with threads := restart p.threads p.nextTid, nextTid := p.nextTid + p.threads.length }

/-- The member `setNumThreads` (lines 66-115).  `sched` is what the other threads do while the
caller waits in the join loop of the shrink branch; the result is `none` when that loop is not
through under `sched` (the call has not returned).
Grow (lines 70-87): threads are appended up to `numThreads`.
Shrink (lines 88-114): `stop = true`, join every thread, erase the tail, `stop = false`, start
a new thread in every remaining element.
Equal: nothing. -/
def ThreadPool.setNumThreads (p : ThreadPool) (numThreads : Int) (sched : List Event) :
    Option ThreadPool :=
  let n := clamp numThreads
  if n > p.threads.length then
    some (ThreadPool.spawnN (n - p.threads.length) p)
  else if n < p.threads.length then
    match (p.shrinkStop.run sched).joinAll with
    | none => none
    | some j => some ((j.shrinkErase n).shrinkClear).shrinkRestart
  else some p

/-! ## Tasks in flight, histories, reachable states -/

/-- The tasks a worker has popped and not yet called: at most one. -/
def held (w : Worker) : List Task :=
  match w.status with
  | Status.Holding t => [t]
  | _ => []

/-- The tasks in flight: popped by some worker, not yet called. -/
def inflight : List Worker → List Task
  | [] => []
  | w :: ws => held w ++ inflight ws

/-- What a caller or a worker does during the life of the pool, before the destructor. -/
inductive Op where
  | submit : Task → Op
  | work : Nat → Op
  | resize : Int → List Event → Op
deriving Repr

/-- One operation; `none` when a `resize` does not return under its schedule. -/
def ThreadPool.apply (p : ThreadPool) : Op → Option ThreadPool
  | Op.submit t => some (p.enqueue t)
  | Op.work i => some ((p.workerStep i).getD p)
  | Op.resize k sched => p.setNumThreads k sched

/-- A history of operations, from left to right. -/
def ThreadPool.runOps (p : ThreadPool) : List Op → Option ThreadPool
  | [] => some p
  | o :: os =>
    match p.apply o with
    | none => none
    | some q => ThreadPool.runOps q os

/-- A state the pool can be in between operations: built by the constructor, then any history
of submissions, worker steps and resizes that returned. -/
def Reachable (p : ThreadPool) : Prop :=
  ∃ (n : Int) (ops : List Op), (ThreadPool.construct n).runOps ops = some p

/-! ## Notions used in the proofs -/

/-- The threads started by `n` iterations of `emplace_back`, the first with identity `tid`. -/
def fresh (tid : Nat) : Nat → List Worker
  | 0 => []
  | n + 1 => ⟨tid, Status.Waiting⟩ :: fresh (tid + 1) n

/-- The `return` of line 34 by the thread at index `i`. -/
def ThreadPool.doReturn (p : ThreadPool) (i : Nat) (w : Worker) : ThreadPool :=
  { p with threads := p.threads.set i { w with status := Status.Returned } }

/-- The pop of lines 36-37 by the thread at index `i`, the queue being `t :: rest`. -/
def ThreadPool.doClaim (p : ThreadPool) (i : Nat) (w : Worker) (t : Task) (rest : List Task) :
    ThreadPool :=
  { p with
    tasks := rest
    claimed := p.claimed ++ [t]
    threads := p.threads.set i { w with status := Status.Holding t } }

/-- The call of line 39 by the thread at index `i`, which holds `t`. -/
def ThreadPool.doCall (p : ThreadPool) (i : Nat) (w : Worker) (t : Task) : ThreadPool :=
  { p with
    executed := p.executed ++ [t]
    threads := p.threads.set i { w with status := afterCall t } }

/-- The tasks the pool is answerable for: called, in flight or queued. -/
def ThreadPool.ledger (p : ThreadPool) : List Task :=
  p.executed ++ inflight p.threads ++ p.tasks

/-- The record of `q` continues the record of `p`, the tasks `new` having been submitted in
between: the logs only grow, the queue is popped at the head and pushed at the tail, and no
task is lost or duplicated. -/
structure Follows (p q : ThreadPool) (new : List Task) : Prop where
  submitted : q.submitted = p.submitted ++ new
  fifo : q.claimed ++ q.tasks = p.claimed ++ p.tasks ++ new
  ledger : q.ledger.Perm (p.ledger ++ new)
  executed : ∃ done, q.executed = p.executed ++ done
  claimed : ∃ popped, q.claimed = p.claimed ++ popped

/-- The parts of the state no worker and no `enqueue` writes: the flag, the size of the vector,
the identities of the threads in it. -/
structure SameShape (p q : ThreadPool) : Prop where
  stop : q.stop = p.stop
  nextTid : q.nextTid = p.nextTid
  length : q.threads.length = p.threads.length
  tids : q.threads.map Worker.tid = p.threads.map Worker.tid

/-- The state in which the shrink branch returns, `j` being the state when its join loop was
through: the first `n` elements hold newly started threads. -/
def ThreadPool.afterShrink (j : ThreadPool) (n : Nat) : ThreadPool :=
  { j with
    threads := fresh j.nextTid (min n j.threads.length)
    stop := false
    nextTid := j.nextTid + min n j.threads.length }

/-- A status from which the worker can still reach its `return`: it is not out by an
exception, and the task it holds, if any, does not throw. -/
def Status.ok : Status → Bool
  | Status.Holding t => !t.raises
  | Status.Aborted => false
  | _ => true

/-- No thread is out by an exception and no task in flight or queued throws. -/
def ThreadPool.healthy (p : ThreadPool) : Bool :=
  p.threads.all (fun w => w.status.ok) && p.tasks.all (fun t => !t.raises)

/-- The steps a worker in this status still has before it, with an empty queue and `stop`. -/
def Status.weight : Status → Nat
  | Status.Waiting => 1
  | Status.Holding _ => 2
  | _ => 0

/-- The sum of the weights of the workers. -/
def load : List Worker → Nat
  | [] => 0
  | w :: ws => w.status.weight + load ws

/-- The number of worker steps left until every worker has returned, once `stop` is set: two
for each queued task (pop, call), one for each `return`, one for each call in flight. -/
def ThreadPool.remaining (p : ThreadPool) : Nat :=
  2 * p.tasks.length + load p.threads

/-- Once some worker has returned, the queue is empty. -/
def Drained (p : ThreadPool) : Prop :=
  p.tasks = [] ∨ ∀ w ∈ p.threads, w.status ≠ Status.Returned

/-- A pool between operations: `stop` is false, the vector holds between 1 and 100 threads and
none of them has returned. -/
structure Idle (p : ThreadPool) : Prop where
  stop : p.stop = false
  size : 1 ≤ p.threads.length ∧ p.threads.length ≤ 100
  live : ∀ w ∈ p.threads, w.status ≠ Status.Returned

/-- Every thread in the vector was started before now: its identity is below `nextTid`. -/
def FreshTids (p : ThreadPool) : Prop :=
  ∀ t ∈ p.threads.map Worker.tid, t < p.nextTid

/-! ## Concrete states -/

/-- A history: two workers, three submissions, the first task called and the second popped. -/
def demoOps : List Op :=
  [Op.submit ⟨1, false⟩, Op.submit ⟨2, false⟩, Op.work 0, Op.submit ⟨3, false⟩, Op.work 0,
    Op.work 1]

/-- The state after `demoOps` on a pool constructed with two threads. -/
def demoPool : ThreadPool :=
  { threads := [⟨0, Status.Waiting⟩, ⟨1, Status.Holding ⟨2, false⟩⟩]
    tasks := [⟨3, false⟩]
    stop := false
    submitted := [⟨1, false⟩, ⟨2, false⟩, ⟨3, false⟩]
    claimed := [⟨1, false⟩, ⟨2, false⟩]
    executed := [⟨1, false⟩]
    nextTid := 2 }

/-- The state after the destructor on `demoPool` under the schedule `[0, 0, 1, 1, 0]`. -/
def demoEnd : ThreadPool :=
  { threads := [⟨0, Status.Returned⟩, ⟨1, Status.Returned⟩]
    tasks := []
    stop := true
    submitted := [⟨1, false⟩, ⟨2, false⟩, ⟨3, false⟩]
    claimed := [⟨1, false⟩, ⟨2, false⟩, ⟨3, false⟩]
    executed := [⟨1, false⟩, ⟨3, false⟩, ⟨2, false⟩]
    nextTid := 2 }

/-- A pool of three workers with one queued task. -/
def shrinkDemo : ThreadPool :=
  { threads := [⟨0, Status.Waiting⟩, ⟨1, Status.Waiting⟩, ⟨2, Status.Waiting⟩]
    tasks := [⟨1, false⟩]
    stop := false
    submitted := [⟨1, false⟩]
    claimed := []
    executed := []
    nextTid := 3 }

/-- What the three workers do while `setNumThreads(2)` waits in its join loop: worker 0 pops
the task, workers 1 and 2 return, worker 0 calls the task and returns. -/
def shrinkSched : List Event :=
  [Event.work 0, Event.work 1, Event.work 2, Event.work 0, Event.work 0]

/-- The state in which `setNumThreads(2)` returns on `shrinkDemo` under `shrinkSched`. -/
def shrinkEnd : ThreadPool :=
  { threads := [⟨3, Status.Waiting⟩, ⟨4, Status.Waiting⟩]
    tasks := []
    stop := false
    submitted := [⟨1, false⟩]
    claimed := [⟨1, false⟩]
    executed := [⟨1, false⟩]
    nextTid := 5 }

/-- A worker that holds a throwing task, and one more task in the queue. -/
def crashDemo : ThreadPool :=
  { threads := [⟨0, Status.Holding ⟨1, true⟩⟩]
    tasks := [⟨2, false⟩]
    stop := false
    submitted := [⟨1, true⟩, ⟨2, false⟩]
    claimed := [⟨1, true⟩]
    executed := []
    nextTid := 1 }

/-- The state after the worker of `crashDemo` has called its task. -/
def crashEnd : ThreadPool :=
  { threads := [⟨0, Status.Aborted⟩]
    tasks := [⟨2, false⟩]
    stop := false
    submitted := [⟨1, true⟩, ⟨2, false⟩]
    claimed := [⟨1, true⟩]
    executed := [⟨1, true⟩]
    nextTid := 1 }

/-- A waiting worker, `stop` false, and a queue whose head is a task that throws. -/
def wakeDemo : ThreadPool :=
  { threads := [⟨0, Status.Waiting⟩]
    tasks := [⟨1, true⟩]
    stop := false
    submitted := [⟨1, true⟩]
    claimed := []
    executed := []
    nextTid := 1 }

/-- The state after the worker of `wakeDemo` has popped the head of the queue. -/
def wakeHeld : ThreadPool :=
  { threads := [⟨0, Status.Holding ⟨1, true⟩⟩]
    tasks := []
    stop := false
    submitted := [⟨1, true⟩]
    claimed := [⟨1, true⟩]
    executed := []
    nextTid := 1 }

/-- The state after the worker of `wakeHeld` has called the task it holds. -/
def wakeEnd : ThreadPool :=
  { threads := [⟨0, Status.Aborted⟩]
    tasks := []
    stop := false
    submitted := [⟨1, true⟩]
    claimed := [⟨1, true⟩]
    executed := [⟨1, true⟩]
    nextTid := 1 }

/-! ## Starting threads -/

theorem fresh_length (tid n : Nat) : (fresh tid n).length = n := by
  induction n generalizing tid with
  | zero => rfl
  | succ n ih => simp [fresh, ih]

theorem fresh_status (tid n : Nat) : ∀ w ∈ fresh tid n, w.status = Status.Waiting := by
  induction n generalizing tid with
  | zero => simp [fresh]
  | succ n ih =>
    intro w hw
    simp only [fresh, List.mem_cons] at hw
    rcases hw with rfl | hw
    · rfl
    · exact ih _ w hw

theorem fresh_tid (tid n : Nat) : ∀ w ∈ fresh tid n, tid ≤ w.tid := by
  induction n generalizing tid with
  | zero => simp [fresh]
  | succ n ih =>
    intro w hw
    simp only [fresh, List.mem_cons] at hw
    rcases hw with rfl | hw
    · exact Nat.le_refl _
    · exact Nat.le_of_succ_le (ih _ w hw)

theorem spawnN_eq (n : Nat) (p : ThreadPool) :
    ThreadPool.spawnN n p =
      { p with threads := p.threads ++ fresh p.nextTid n, nextTid := p.nextTid + n } := by
  induction n generalizing p with
  | zero => simp [ThreadPool.spawnN, fresh]
  | succ n ih =>
    simp only [ThreadPool.spawnN, ih, ThreadPool.spawn, fresh, List.append_assoc,
      List.singleton_append]
    congr 1
    omega

theorem restart_eq (ws : List Worker) (tid : Nat) : restart ws tid = fresh tid ws.length := by
  induction ws generalizing tid with
  | nil => rfl
  | cons w ws ih => simp [restart, fresh, ih]

theorem clamp_eq (k : Int) : (clamp k : Int) = max 1 (min k 100) := by
  unfold clamp
  omega

theorem clamp_bounds (k : Int) : 1 ≤ clamp k ∧ clamp k ≤ 100 := by
  unfold clamp
  omega

theorem grow_branch_eq (p : ThreadPool) (k : Int) (sched : List Event)
    (h : p.threads.length < clamp k) :
    p.setNumThreads k sched = some (ThreadPool.spawnN (clamp k - p.threads.length) p) := by
  simp only [ThreadPool.setNumThreads, gt_iff_lt, h, if_true]

/-! ## The three moves of a worker -/

theorem workerStep_return (p : ThreadPool) (i : Nat) (w : Worker)
    (hw : p.threads[i]? = some w) (hs : w.status = Status.Waiting)
    (hstop : p.stop = true) (hq : p.tasks = []) :
    p.workerStep i = some (p.doReturn i w) := by
  simp [ThreadPool.workerStep, hw, hs, hstop, hq, ThreadPool.doReturn]

theorem workerStep_claim (p : ThreadPool) (i : Nat) (w : Worker) (t : Task) (rest : List Task)
    (hw : p.threads[i]? = some w) (hs : w.status = Status.Waiting)
    (hq : p.tasks = t :: rest) :
    p.workerStep i = some (p.doClaim i w t rest) := by
  simp [ThreadPool.workerStep, hw, hs, hq, ThreadPool.doClaim]

theorem workerStep_blocked (p : ThreadPool) (i : Nat) (w : Worker)
    (hw : p.threads[i]? = some w) (hs : w.status = Status.Waiting)
    (hstop : p.stop = false) (hq : p.tasks = []) :
    p.workerStep i = none := by
  simp [ThreadPool.workerStep, hw, hs, hstop, hq]

theorem workerStep_call (p : ThreadPool) (i : Nat) (w : Worker) (t : Task)
    (hw : p.threads[i]? = some w) (hs : w.status = Status.Holding t) :
    p.workerStep i = some (p.doCall i w t) := by
  simp [ThreadPool.workerStep, hw, hs, ThreadPool.doCall]

theorem workerStep_done (p : ThreadPool) (i : Nat) (w : Worker)
    (hw : p.threads[i]? = some w)
    (hs : w.status = Status.Returned ∨ w.status = Status.Aborted) :
    p.workerStep i = none := by
  rcases hs with hs | hs <;> simp [ThreadPool.workerStep, hw, hs]

/-- Every step of a worker is one of the three moves. -/
theorem workerStep_cases (p q : ThreadPool) (i : Nat) (h : p.workerStep i = some q) :
    ∃ w, p.threads[i]? = some w ∧
      ((w.status = Status.Waiting ∧ p.stop = true ∧ p.tasks = [] ∧ q = p.doReturn i w) ∨
       (w.status = Status.Waiting ∧ ∃ t rest, p.tasks = t :: rest ∧ q = p.doClaim i w t rest) ∨
       (∃ t, w.status = Status.Holding t ∧ q = p.doCall i w t)) := by
  cases hw : p.threads[i]? with
  | none => simp [ThreadPool.workerStep, hw] at h
  | some w =>
    refine ⟨w, rfl, ?_⟩
    cases hs : w.status with
    | Waiting =>
      cases hq : p.tasks with
      | nil =>
        cases hstop : p.stop with
        | false => rw [workerStep_blocked p i w hw hs hstop hq] at h; cases h
        | true =>
          rw [workerStep_return p i w hw hs hstop hq] at h
          exact Or.inl ⟨rfl, rfl, rfl, (Option.some.inj h).symm⟩
      | cons t rest =>
        rw [workerStep_claim p i w t rest hw hs hq] at h
        exact Or.inr (Or.inl ⟨rfl, t, rest, rfl, (Option.some.inj h).symm⟩)
    | Holding t =>
      rw [workerStep_call p i w t hw hs] at h
      exact Or.inr (Or.inr ⟨t, rfl, (Option.some.inj h).symm⟩)
    | Returned => rw [workerStep_done p i w hw (Or.inl hs)] at h; cases h
    | Aborted => rw [workerStep_done p i w hw (Or.inr hs)] at h; cases h

/-! ## Conservation of tasks -/

theorem held_afterCall (tid : Nat) (t : Task) : held ⟨tid, afterCall t⟩ = [] := by
  unfold afterCall held
  cases t.raises <;> rfl

theorem inflight_append (l₁ l₂ : List Worker) :
    inflight (l₁ ++ l₂) = inflight l₁ ++ inflight l₂ := by
  induction l₁ with
  | nil => rfl
  | cons a l ih => simp [inflight, ih]

theorem inflight_nil_of (l : List Worker) (h : ∀ w ∈ l, held w = []) : inflight l = [] := by
  induction l with
  | nil => rfl
  | cons a l ih =>
    simp only [inflight, h a (List.mem_cons_self _ _), List.nil_append]
    exact ih (fun w hw => h w (List.mem_cons_of_mem _ hw))

/-- Replacing the worker at index `i` moves only what that worker holds. -/
theorem inflight_set (l : List Worker) (i : Nat) (w w' : Worker) (h : l[i]? = some w)
    (x : Task) :
    (held w).count x + (inflight (l.set i w')).count x =
      (held w').count x + (inflight l).count x := by
  induction l generalizing i with
  | nil => simp at h
  | cons a l ih =>
    cases i with
    | zero =>
      simp only [List.getElem?_cons_zero, Option.some.injEq] at h
      subst h
      simp only [List.set_cons_zero, inflight, List.count_append]
      omega
    | succ j =>
      simp only [List.getElem?_cons_succ] at h
      have := ih j h
      simp only [List.set_cons_succ, inflight, List.count_append]
      omega

theorem held_returned (tid : Nat) : held ⟨tid, Status.Returned⟩ = [] := rfl

theorem held_mk_holding (tid : Nat) (t : Task) : held ⟨tid, Status.Holding t⟩ = [t] := rfl

theorem held_waiting (w : Worker) (h : w.status = Status.Waiting) : held w = [] := by
  simp [held, h]

theorem held_holding (w : Worker) (t : Task) (h : w.status = Status.Holding t) :
    held w = [t] := by
  simp [held, h]

/-- A step of a worker neither loses nor duplicates a task. -/
theorem workerStep_ledger (p q : ThreadPool) (i : Nat) (h : p.workerStep i = some q) :
    q.ledger.Perm p.ledger := by
  obtain ⟨w, hw, hc⟩ := workerStep_cases p q i h
  rw [List.perm_iff_count]
  intro x
  rcases hc with ⟨hs, -, -, rfl⟩ | ⟨hs, t, rest, hq, rfl⟩ | ⟨t, hs, rfl⟩
  · have := inflight_set p.threads i w { w with status := Status.Returned } hw x
    simp only [held_waiting w hs, held_returned, List.count_nil] at this
    simp only [ThreadPool.ledger, ThreadPool.doReturn, List.count_append]
    omega
  · have := inflight_set p.threads i w { w with status := Status.Holding t } hw x
    simp only [held_waiting w hs, held_mk_holding, List.count_nil] at this
    simp only [ThreadPool.ledger, ThreadPool.doClaim, List.count_append, hq, List.count_cons,
      List.count_nil] at this ⊢
    omega
  · have := inflight_set p.threads i w { w with status := afterCall t } hw x
    simp only [held_holding w t hs, held_afterCall, List.count_nil] at this
    simp only [ThreadPool.ledger, ThreadPool.doCall, List.count_append, List.count_cons,
      List.count_nil] at this ⊢
    omega

theorem follows_refl (p : ThreadPool) : Follows p p [] :=
  ⟨by simp, by simp, by simp, ⟨[], by simp⟩, ⟨[], by simp⟩⟩

theorem follows_trans {p q r : ThreadPool} {a b : List Task}
    (h₁ : Follows p q a) (h₂ : Follows q r b) : Follows p r (a ++ b) := by
  obtain ⟨d₁, hd₁⟩ := h₁.executed
  obtain ⟨d₂, hd₂⟩ := h₂.executed
  obtain ⟨c₁, hc₁⟩ := h₁.claimed
  obtain ⟨c₂, hc₂⟩ := h₂.claimed
  refine ⟨?_, ?_, ?_, ⟨d₁ ++ d₂, ?_⟩, ⟨c₁ ++ c₂, ?_⟩⟩
  · rw [h₂.submitted, h₁.submitted, List.append_assoc]
  · rw [h₂.fifo, h₁.fifo, List.append_assoc]
  · refine h₂.ledger.trans ?_
    rw [← List.append_assoc]
    exact h₁.ledger.append_right b
  · rw [hd₂, hd₁, List.append_assoc]
  · rw [hc₂, hc₁, List.append_assoc]

theorem workerStep_follows (p q : ThreadPool) (i : Nat) (h : p.workerStep i = some q) :
    Follows p q [] := by
  have hl := workerStep_ledger p q i h
  obtain ⟨w, -, hc⟩ := workerStep_cases p q i h
  rcases hc with ⟨-, -, -, rfl⟩ | ⟨-, t, rest, hq, rfl⟩ | ⟨t, -, rfl⟩
  · exact ⟨by simp [ThreadPool.doReturn], by simp [ThreadPool.doReturn], by simpa using hl,
      ⟨[], by simp [ThreadPool.doReturn]⟩, ⟨[], by simp [ThreadPool.doReturn]⟩⟩
  · exact ⟨by simp [ThreadPool.doClaim], by simp [ThreadPool.doClaim, hq], by simpa using hl,
      ⟨[], by simp [ThreadPool.doClaim]⟩, ⟨[t], by simp [ThreadPool.doClaim]⟩⟩
  · exact ⟨by simp [ThreadPool.doCall], by simp [ThreadPool.doCall], by simpa using hl,
      ⟨[t], by simp [ThreadPool.doCall]⟩, ⟨[], by simp [ThreadPool.doCall]⟩⟩

theorem enqueue_follows (p : ThreadPool) (t : Task) : Follows p (p.enqueue t) [t] :=
  ⟨by simp [ThreadPool.enqueue], by simp [ThreadPool.enqueue],
    by simp [ThreadPool.enqueue, ThreadPool.ledger], ⟨[], by simp [ThreadPool.enqueue]⟩,
    ⟨[], by simp [ThreadPool.enqueue]⟩⟩

theorem step_follows (p : ThreadPool) (e : Event) : Follows p (p.step e) (enqueued [e]) := by
  cases e with
  | enq t => exact enqueue_follows p t
  | work i =>
    cases h : p.workerStep i with
    | none => simpa [ThreadPool.step, h, enqueued] using follows_refl p
    | some q => simpa [ThreadPool.step, h, enqueued] using workerStep_follows p q i h

theorem enqueued_cons (e : Event) (es : List Event) :
    enqueued (e :: es) = enqueued [e] ++ enqueued es := by
  cases e <;> simp [enqueued]

theorem enqueued_work (sched : List Nat) : enqueued (sched.map Event.work) = [] := by
  induction sched with
  | nil => rfl
  | cons i is ih => simpa [enqueued] using ih

theorem run_cons (p : ThreadPool) (e : Event) (es : List Event) :
    p.run (e :: es) = (p.step e).run es := rfl

theorem run_follows (p : ThreadPool) (sched : List Event) :
    Follows p (p.run sched) (enqueued sched) := by
  induction sched generalizing p with
  | nil => exact follows_refl p
  | cons e es ih =>
    rw [run_cons, enqueued_cons]
    exact follows_trans (step_follows p e) (ih _)

/-! ## What a schedule leaves alone -/

theorem sameShape_refl (p : ThreadPool) : SameShape p p := ⟨rfl, rfl, rfl, rfl⟩

theorem sameShape_trans {p q r : ThreadPool} (h₁ : SameShape p q) (h₂ : SameShape q r) :
    SameShape p r :=
  ⟨h₂.stop.trans h₁.stop, h₂.nextTid.trans h₁.nextTid, h₂.length.trans h₁.length,
    h₂.tids.trans h₁.tids⟩

theorem map_tid_set (l : List Worker) (i : Nat) (w : Worker) (s : Status)
    (h : l[i]? = some w) :
    (l.set i { w with status := s }).map Worker.tid = l.map Worker.tid := by
  induction l generalizing i with
  | nil => rfl
  | cons a l ih =>
    cases i with
    | zero =>
      simp only [List.getElem?_cons_zero, Option.some.injEq] at h
      subst h
      simp
    | succ j =>
      simp only [List.getElem?_cons_succ] at h
      simp [ih j h]

theorem workerStep_shape (p q : ThreadPool) (i : Nat) (h : p.workerStep i = some q) :
    SameShape p q := by
  obtain ⟨w, hw, hc⟩ := workerStep_cases p q i h
  rcases hc with ⟨-, -, -, rfl⟩ | ⟨-, t, rest, -, rfl⟩ | ⟨t, -, rfl⟩
  · exact ⟨rfl, rfl, by simp [ThreadPool.doReturn], map_tid_set _ _ _ _ hw⟩
  · exact ⟨rfl, rfl, by simp [ThreadPool.doClaim], map_tid_set _ _ _ _ hw⟩
  · exact ⟨rfl, rfl, by simp [ThreadPool.doCall], map_tid_set _ _ _ _ hw⟩

theorem step_shape (p : ThreadPool) (e : Event) : SameShape p (p.step e) := by
  cases e with
  | enq t => exact ⟨rfl, rfl, rfl, rfl⟩
  | work i =>
    cases h : p.workerStep i with
    | none => simpa [ThreadPool.step, h] using sameShape_refl p
    | some q => simpa [ThreadPool.step, h] using workerStep_shape p q i h

theorem run_shape (p : ThreadPool) (sched : List Event) : SameShape p (p.run sched) := by
  induction sched generalizing p with
  | nil => exact sameShape_refl p
  | cons e es ih =>
    rw [run_cons]
    exact sameShape_trans (step_shape p e) (ih _)

/-- A property kept by every step of a worker is kept by every schedule of workers. -/
theorem run_work_induct (P : ThreadPool → Prop)
    (hP : ∀ p q i, P p → p.workerStep i = some q → P q)
    (sched : List Nat) (p : ThreadPool) (h : P p) : P (p.run (sched.map Event.work)) := by
  induction sched generalizing p with
  | nil => exact h
  | cons i is ih =>
    rw [List.map_cons, run_cons]
    apply ih
    cases hs : p.workerStep i with
    | none => simpa [ThreadPool.step, hs] using h
    | some q => simpa [ThreadPool.step, hs] using hP p q i h hs

/-! ## The shrink branch -/

theorem allReturned_iff (p : ThreadPool) :
    p.allReturned = true ↔ ∀ w ∈ p.threads, w.status = Status.Returned := by
  simp [ThreadPool.allReturned]

theorem joinAll_some (p j : ThreadPool) (h : p.joinAll = some j) :
    j = p ∧ ∀ w ∈ p.threads, w.status = Status.Returned := by
  unfold ThreadPool.joinAll at h
  split at h
  · rename_i hr
    exact ⟨(Option.some.inj h).symm, (allReturned_iff p).mp hr⟩
  · cases h

theorem shrink_tail_eq (j : ThreadPool) (n : Nat) :
    ((j.shrinkErase n).shrinkClear).shrinkRestart = j.afterShrink n := by
  simp [ThreadPool.shrinkErase, ThreadPool.shrinkClear, ThreadPool.shrinkRestart, restart_eq,
    ThreadPool.afterShrink]

/-- The shrink branch, unfolded. -/
theorem setNumThreads_shrink (p q : ThreadPool) (k : Int) (sched : List Event)
    (hlt : clamp k < p.threads.length) (h : p.setNumThreads k sched = some q) :
    (∀ w ∈ (p.shrinkStop.run sched).threads, w.status = Status.Returned) ∧
    q = (p.shrinkStop.run sched).afterShrink (clamp k) := by
  have hn : ¬ clamp k > p.threads.length := by omega
  simp only [ThreadPool.setNumThreads, hn, hlt, if_true, if_false] at h
  cases hj : (p.shrinkStop.run sched).joinAll with
  | none => simp [hj] at h
  | some j =>
    obtain ⟨rfl, hr⟩ := joinAll_some _ _ hj
    simp only [hj, shrink_tail_eq, Option.some.injEq] at h
    exact ⟨hr, h.symm⟩

theorem setNumThreads_shrink_returns (p : ThreadPool) (k : Int) (sched : List Event)
    (hlt : clamp k < p.threads.length)
    (hr : (p.shrinkStop.run sched).allReturned = true) :
    p.setNumThreads k sched = some ((p.shrinkStop.run sched).afterShrink (clamp k)) := by
  have hn : ¬ clamp k > p.threads.length := by omega
  simp [ThreadPool.setNumThreads, hn, hlt, ThreadPool.joinAll, hr, shrink_tail_eq]

theorem setNumThreads_equal (p : ThreadPool) (k : Int) (sched : List Event)
    (heq : clamp k = p.threads.length) : p.setNumThreads k sched = some p := by
  simp [ThreadPool.setNumThreads, heq]

theorem setNumThreads_length (p q : ThreadPool) (k : Int) (sched : List Event)
    (h : p.setNumThreads k sched = some q) : q.threads.length = clamp k := by
  rcases Nat.lt_trichotomy (clamp k) p.threads.length with hlt | heq | hgt
  · obtain ⟨-, rfl⟩ := setNumThreads_shrink p q k sched hlt h
    have := (run_shape p.shrinkStop sched).length
    simp only [ThreadPool.shrinkStop] at this
    simp only [ThreadPool.afterShrink, fresh_length, ThreadPool.shrinkStop]
    omega
  · rw [setNumThreads_equal p k sched heq] at h
    rw [← Option.some.inj h, heq]
  · rw [grow_branch_eq p k sched hgt] at h
    rw [← Option.some.inj h, spawnN_eq]
    simp only [List.length_append, fresh_length]
    omega

/-! ## Draining: the join loop gets through -/

theorem healthy_iff (p : ThreadPool) :
    p.healthy = true ↔
      (∀ w ∈ p.threads, w.status.ok = true) ∧ (∀ t ∈ p.tasks, t.raises = false) := by
  simp [ThreadPool.healthy]

theorem load_set (l : List Worker) (i : Nat) (w w' : Worker) (h : l[i]? = some w) :
    load (l.set i w') + w.status.weight = load l + w'.status.weight := by
  induction l generalizing i with
  | nil => simp at h
  | cons a l ih =>
    cases i with
    | zero =>
      simp only [List.getElem?_cons_zero, Option.some.injEq] at h
      subst h
      simp only [List.set_cons_zero, load]
      omega
    | succ j =>
      simp only [List.getElem?_cons_succ] at h
      have := ih j h
      simp only [List.set_cons_succ, load]
      omega

theorem ok_set (l : List Worker) (i : Nat) (w' : Worker)
    (hl : ∀ w ∈ l, w.status.ok = true) (hw : w'.status.ok = true) :
    ∀ w ∈ l.set i w', w.status.ok = true := by
  intro w hm
  rcases List.mem_or_eq_of_mem_set hm with h | rfl
  · exact hl w h
  · exact hw

/-- A step of a worker keeps the pool healthy. -/
theorem workerStep_healthy (p q : ThreadPool) (i : Nat) (hp : p.healthy = true)
    (h : p.workerStep i = some q) : q.healthy = true := by
  rw [healthy_iff] at hp ⊢
  obtain ⟨hth, htk⟩ := hp
  obtain ⟨w, hw, hc⟩ := workerStep_cases p q i h
  rcases hc with ⟨-, -, -, rfl⟩ | ⟨-, t, rest, hq, rfl⟩ | ⟨t, hs, rfl⟩
  · exact ⟨ok_set _ _ _ hth rfl, htk⟩
  · refine ⟨ok_set _ _ _ hth ?_, fun x hx => htk x ?_⟩
    · simpa [Status.ok] using htk t (by simp [hq])
    · rw [hq]
      exact List.mem_cons_of_mem _ hx
  · refine ⟨ok_set _ _ _ hth ?_, htk⟩
    have hok := hth w (List.mem_iff_getElem?.mpr ⟨i, hw⟩)
    rw [hs] at hok
    have hr : t.raises = false := by simpa [Status.ok] using hok
    simp [afterCall, hr, Status.ok]

/-- In a healthy pool every step of a worker uses up one unit of what remains. -/
theorem workerStep_remaining (p q : ThreadPool) (i : Nat)
    (hp : p.healthy = true) (h : p.workerStep i = some q) :
    q.remaining + 1 = p.remaining := by
  rw [healthy_iff] at hp
  obtain ⟨w, hw, hc⟩ := workerStep_cases p q i h
  rcases hc with ⟨hs, -, -, rfl⟩ | ⟨hs, t, rest, hq, rfl⟩ | ⟨t, hs, rfl⟩
  · have := load_set p.threads i w { w with status := Status.Returned } hw
    simp only [hs, Status.weight] at this
    simp only [ThreadPool.remaining, ThreadPool.doReturn]
    omega
  · have := load_set p.threads i w { w with status := Status.Holding t } hw
    simp only [hs, Status.weight] at this
    simp only [ThreadPool.remaining, ThreadPool.doClaim, hq, List.length_cons]
    omega
  · have hok := hp.1 w (List.mem_iff_getElem?.mpr ⟨i, hw⟩)
    rw [hs] at hok
    have hr : t.raises = false := by simpa [Status.ok] using hok
    have hac : afterCall t = Status.Waiting := by simp [afterCall, hr]
    have := load_set p.threads i w { w with status := Status.Waiting } hw
    simp only [hs, Status.weight] at this
    simp only [ThreadPool.remaining, ThreadPool.doCall, hac]
    omega

/-- Under `stop`, in a healthy pool, a worker that has not returned can move. -/
theorem workerStep_enabled (p : ThreadPool) (i : Nat) (w : Worker) (hstop : p.stop = true)
    (hp : p.healthy = true) (hw : p.threads[i]? = some w) (hs : w.status ≠ Status.Returned) :
    ∃ q, p.workerStep i = some q := by
  rw [healthy_iff] at hp
  have hok := hp.1 w (List.mem_iff_getElem?.mpr ⟨i, hw⟩)
  cases hst : w.status with
  | Waiting =>
    cases hq : p.tasks with
    | nil => exact ⟨_, workerStep_return p i w hw hst hstop hq⟩
    | cons t rest => exact ⟨_, workerStep_claim p i w t rest hw hst hq⟩
  | Holding t => exact ⟨_, workerStep_call p i w t hw hst⟩
  | Returned => exact absurd hst hs
  | Aborted => simp [hst, Status.ok] at hok

/-- Under `stop`, a healthy pool has a schedule of its workers after which every worker has
returned. -/
theorem drain_exists (n : Nat) :
    ∀ p : ThreadPool, p.remaining ≤ n → p.stop = true → p.healthy = true →
      ∃ sched : List Nat, (p.run (sched.map Event.work)).allReturned = true := by
  induction n with
  | zero =>
    intro p hn hstop hp
    by_cases hr : p.allReturned = true
    · exact ⟨[], hr⟩
    · rw [allReturned_iff] at hr
      push_neg at hr
      obtain ⟨w, hm, hs⟩ := hr
      obtain ⟨i, hw⟩ := List.mem_iff_getElem?.mp hm
      obtain ⟨q, hq⟩ := workerStep_enabled p i w hstop hp hw hs
      have := workerStep_remaining p q i hp hq
      omega
  | succ n ih =>
    intro p hn hstop hp
    by_cases hr : p.allReturned = true
    · exact ⟨[], hr⟩
    · rw [allReturned_iff] at hr
      push_neg at hr
      obtain ⟨w, hm, hs⟩ := hr
      obtain ⟨i, hw⟩ := List.mem_iff_getElem?.mp hm
      obtain ⟨q, hq⟩ := workerStep_enabled p i w hstop hp hw hs
      have hrem := workerStep_remaining p q i hp hq
      have hstop' : q.stop = true := (workerStep_shape p q i hq).stop.trans hstop
      obtain ⟨sched, hsched⟩ := ih q (by omega) hstop' (workerStep_healthy p q i hp hq)
      refine ⟨i :: sched, ?_⟩
      rw [List.map_cons, run_cons]
      simpa [ThreadPool.step, hq] using hsched

theorem run_work_healthy (p : ThreadPool) (sched : List Nat) (hp : p.healthy = true) :
    (p.run (sched.map Event.work)).healthy = true :=
  run_work_induct (fun s => s.healthy = true) (fun a b i ha hs => workerStep_healthy a b i ha hs)
    sched p hp

theorem run_append (p : ThreadPool) (a b : List Event) : p.run (a ++ b) = (p.run a).run b := by
  simp [ThreadPool.run, List.foldl_append]

/-- Under `stop`, in a healthy pool, every schedule of the workers can be continued to one
after which every worker has returned: the join loop cannot be stuck for ever. -/
theorem drain_extend (p : ThreadPool) (hstop : p.stop = true) (hp : p.healthy = true)
    (sched : List Nat) :
    ∃ more : List Nat, (p.run ((sched ++ more).map Event.work)).allReturned = true := by
  have hs : (p.run (sched.map Event.work)).stop = true :=
    (run_shape p _).stop.trans hstop
  obtain ⟨more, hm⟩ := drain_exists _ (p.run (sched.map Event.work)) (Nat.le_refl _) hs
    (run_work_healthy p sched hp)
  exact ⟨more, by rw [List.map_append, run_append]; exact hm⟩

/-! ## When the last worker returns, the queue is empty -/

theorem afterCall_ne_returned (t : Task) : afterCall t ≠ Status.Returned := by
  unfold afterCall
  cases t.raises <;> simp

theorem workerStep_drained (p q : ThreadPool) (i : Nat) (hp : Drained p)
    (h : p.workerStep i = some q) : Drained q := by
  obtain ⟨w, hw, hc⟩ := workerStep_cases p q i h
  rcases hc with ⟨-, -, hq, rfl⟩ | ⟨-, t, rest, hq, rfl⟩ | ⟨t, -, rfl⟩
  · exact Or.inl hq
  · rcases hp with hp | hp
    · rw [hq] at hp
      cases hp
    · right
      intro x hx
      rcases List.mem_or_eq_of_mem_set hx with hx | rfl
      · exact hp x hx
      · simp
  · rcases hp with hp | hp
    · exact Or.inl hp
    · right
      intro x hx
      rcases List.mem_or_eq_of_mem_set hx with hx | rfl
      · exact hp x hx
      · exact afterCall_ne_returned t

theorem construct_idle (n : Int) : Idle (ThreadPool.construct n) := by
  refine ⟨by simp [ThreadPool.construct, spawnN_eq], ?_, ?_⟩
  · simpa [ThreadPool.construct, spawnN_eq, fresh_length] using clamp_bounds n
  · intro w hw
    have : w.status = Status.Waiting := by
      apply fresh_status 0 (clamp n)
      simpa [ThreadPool.construct, spawnN_eq] using hw
    simp [this]

theorem enqueue_idle (p : ThreadPool) (t : Task) (h : Idle p) : Idle (p.enqueue t) :=
  ⟨h.stop, h.size, h.live⟩

theorem workerStep_idle (p q : ThreadPool) (i : Nat) (hp : Idle p)
    (h : p.workerStep i = some q) : Idle q := by
  have hsh := workerStep_shape p q i h
  refine ⟨hsh.stop.trans hp.stop, by rw [hsh.length]; exact hp.size, ?_⟩
  obtain ⟨w, hw, hc⟩ := workerStep_cases p q i h
  rcases hc with ⟨-, hstop, -, -⟩ | ⟨-, t, rest, hq, rfl⟩ | ⟨t, -, rfl⟩
  · rw [hp.stop] at hstop
    cases hstop
  · intro x hx
    rcases List.mem_or_eq_of_mem_set hx with hx | rfl
    · exact hp.live x hx
    · simp
  · intro x hx
    rcases List.mem_or_eq_of_mem_set hx with hx | rfl
    · exact hp.live x hx
    · exact afterCall_ne_returned t

theorem setNumThreads_idle (p q : ThreadPool) (k : Int) (sched : List Event) (hp : Idle p)
    (h : p.setNumThreads k sched = some q) : Idle q := by
  have hlen := setNumThreads_length p q k sched h
  have hb := clamp_bounds k
  rcases Nat.lt_trichotomy (clamp k) p.threads.length with hlt | heq | hgt
  · obtain ⟨-, rfl⟩ := setNumThreads_shrink p q k sched hlt h
    refine ⟨rfl, by rw [hlen]; exact hb, ?_⟩
    intro w hw
    have : w.status = Status.Waiting := fresh_status _ _ w hw
    simp [this]
  · rw [setNumThreads_equal p k sched heq] at h
    rw [← Option.some.inj h]
    exact hp
  · rw [grow_branch_eq p k sched hgt] at h
    refine ⟨?_, by rw [hlen]; exact hb, ?_⟩
    · rw [← Option.some.inj h, spawnN_eq]
      exact hp.stop
    · rw [← Option.some.inj h, spawnN_eq]
      intro w hw
      rcases List.mem_append.mp hw with hw | hw
      · exact hp.live w hw
      · have : w.status = Status.Waiting := fresh_status _ _ w hw
        simp [this]

theorem apply_idle (p q : ThreadPool) (o : Op) (hp : Idle p) (h : p.apply o = some q) :
    Idle q := by
  cases o with
  | submit t =>
    rw [← Option.some.inj h]
    exact enqueue_idle p t hp
  | work i =>
    simp only [ThreadPool.apply, Option.some.injEq] at h
    cases hs : p.workerStep i with
    | none =>
      rw [hs] at h
      rw [← h]
      exact hp
    | some r =>
      rw [hs] at h
      rw [← h]
      exact workerStep_idle p r i hp hs
  | resize k sched => exact setNumThreads_idle p q k sched hp h

theorem runOps_cons (p : ThreadPool) (o : Op) (os : List Op) :
    p.runOps (o :: os) = (p.apply o).bind (fun q => q.runOps os) := by
  simp only [ThreadPool.runOps]
  cases p.apply o <;> rfl

theorem runOps_idle (p q : ThreadPool) (ops : List Op) (hp : Idle p)
    (h : p.runOps ops = some q) : Idle q := by
  induction ops generalizing p with
  | nil =>
    rw [← Option.some.inj h]
    exact hp
  | cons o os ih =>
    rw [runOps_cons] at h
    cases ha : p.apply o with
    | none => simp [ha] at h
    | some r =>
      rw [ha] at h
      exact ih r (apply_idle p r o hp ha) h

theorem reachable_idle (p : ThreadPool) (h : Reachable p) : Idle p := by
  obtain ⟨n, ops, hr⟩ := h
  exact runOps_idle _ p ops (construct_idle n) hr

/-! ## The records across the operations -/

theorem follows_of_eq (p q : ThreadPool) (hs : q.submitted = p.submitted)
    (hc : q.claimed = p.claimed) (ht : q.tasks = p.tasks) (he : q.executed = p.executed)
    (hi : inflight q.threads = inflight p.threads) : Follows p q [] :=
  ⟨by simp [hs], by simp [hc, ht], by simp [ThreadPool.ledger, he, hi, ht],
    ⟨[], by simp [he]⟩, ⟨[], by simp [hc]⟩⟩

theorem inflight_fresh (tid n : Nat) : inflight (fresh tid n) = [] :=
  inflight_nil_of _ (fun w hw => held_waiting w (fresh_status tid n w hw))

theorem inflight_returned (l : List Worker) (h : ∀ w ∈ l, w.status = Status.Returned) :
    inflight l = [] :=
  inflight_nil_of _ (fun w hw => by simp [held, h w hw])

theorem shrink_follows (p q : ThreadPool) (k : Int) (sched : List Event)
    (hlt : clamp k < p.threads.length) (h : p.setNumThreads k sched = some q) :
    Follows p q (enqueued sched) := by
  obtain ⟨hr, rfl⟩ := setNumThreads_shrink p q k sched hlt h
  have h₁ : Follows p p.shrinkStop [] := follows_of_eq _ _ rfl rfl rfl rfl rfl
  have h₂ := run_follows p.shrinkStop sched
  have h₃ : Follows (p.shrinkStop.run sched) ((p.shrinkStop.run sched).afterShrink (clamp k)) [] :=
    follows_of_eq _ _ rfl rfl rfl rfl (by
      rw [inflight_returned _ hr]
      exact inflight_fresh _ _)
  simpa using follows_trans (follows_trans h₁ h₂) h₃

theorem setNumThreads_follows (p q : ThreadPool) (k : Int) (sched : List Event)
    (h : p.setNumThreads k sched = some q) : ∃ new, Follows p q new := by
  rcases Nat.lt_trichotomy (clamp k) p.threads.length with hlt | heq | hgt
  · exact ⟨_, shrink_follows p q k sched hlt h⟩
  · rw [setNumThreads_equal p k sched heq] at h
    rw [← Option.some.inj h]
    exact ⟨[], follows_refl p⟩
  · rw [grow_branch_eq p k sched hgt] at h
    rw [← Option.some.inj h, spawnN_eq]
    exact ⟨[], follows_of_eq _ _ rfl rfl rfl rfl (by simp [inflight_append, inflight_fresh])⟩

theorem apply_follows (p q : ThreadPool) (o : Op) (h : p.apply o = some q) :
    ∃ new, Follows p q new := by
  cases o with
  | submit t =>
    rw [← Option.some.inj h]
    exact ⟨[t], enqueue_follows p t⟩
  | work i =>
    simp only [ThreadPool.apply, Option.some.injEq] at h
    rw [← h]
    exact ⟨_, step_follows p (Event.work i)⟩
  | resize k sched => exact setNumThreads_follows p q k sched h

theorem runOps_follows (p q : ThreadPool) (ops : List Op) (h : p.runOps ops = some q) :
    ∃ new, Follows p q new := by
  induction ops generalizing p with
  | nil =>
    rw [← Option.some.inj h]
    exact ⟨[], follows_refl p⟩
  | cons o os ih =>
    rw [runOps_cons] at h
    cases ha : p.apply o with
    | none => simp [ha] at h
    | some r =>
      rw [ha] at h
      obtain ⟨a, h₁⟩ := apply_follows p r o ha
      obtain ⟨b, h₂⟩ := ih r h
      exact ⟨a ++ b, follows_trans h₁ h₂⟩

/-- In a reachable state the queue is what was submitted and not yet popped, in the order of
submission, and the tasks called, in flight and queued are together the tasks submitted. -/
theorem reachable_logs (p : ThreadPool) (h : Reachable p) :
    p.submitted = p.claimed ++ p.tasks ∧ p.ledger.Perm p.submitted := by
  obtain ⟨n, ops, hr⟩ := h
  obtain ⟨new, hf⟩ := runOps_follows _ p ops hr
  have hs := hf.submitted
  have hq := hf.fifo
  have hl := hf.ledger
  simp only [ThreadPool.construct, spawnN_eq, List.nil_append, ThreadPool.ledger,
    inflight_fresh, List.append_nil] at hs hq hl
  rw [hs]
  exact ⟨hq.symm, hl⟩

/-! ## The destructor -/

theorem destructor_some (p q : ThreadPool) (sched : List Nat) (h : p.destructor sched = some q) :
    q = { p with stop := true }.run (sched.map Event.work) ∧
      ∀ w ∈ q.threads, w.status = Status.Returned := by
  obtain ⟨rfl, hr⟩ := joinAll_some _ _ h
  exact ⟨rfl, hr⟩

theorem destructor_follows (p q : ThreadPool) (sched : List Nat)
    (h : p.destructor sched = some q) : Follows p q [] := by
  obtain ⟨rfl, -⟩ := destructor_some p q sched h
  have h₁ : Follows p { p with stop := true } [] := follows_of_eq _ _ rfl rfl rfl rfl rfl
  have h₂ := run_follows { p with stop := true } (sched.map Event.work)
  rw [enqueued_work] at h₂
  simpa using follows_trans h₁ h₂

/-- When the destructor is through on a pool with at least one thread, none of which had
returned before, the queue is empty. -/
theorem destructor_tasks (p q : ThreadPool) (sched : List Nat)
    (hne : 1 ≤ p.threads.length) (hlive : ∀ w ∈ p.threads, w.status ≠ Status.Returned)
    (h : p.destructor sched = some q) : q.tasks = [] := by
  obtain ⟨hq, hr⟩ := destructor_some p q sched h
  have hd : Drained q := by
    rw [hq]
    exact run_work_induct Drained (fun a b i ha hs => workerStep_drained a b i ha hs) sched _
      (Or.inr hlive)
  have hlen : q.threads.length = p.threads.length := by
    rw [hq]
    exact (run_shape _ _).length
  rcases hd with hd | hd
  · exact hd
  · exfalso
    cases hth : q.threads with
    | nil => rw [hth] at hlen; simp at hlen; omega
    | cons w ws =>
      have hm : w ∈ q.threads := by rw [hth]; exact List.mem_cons_self _ _
      exact hd w hm (hr w hm)

theorem destructor_returns (p : ThreadPool) (hp : p.healthy = true) (sched : List Nat) :
    ∃ more q, p.destructor (sched ++ more) = some q := by
  have hh : ({ p with stop := true } : ThreadPool).healthy = true := hp
  obtain ⟨more, hm⟩ := drain_extend { p with stop := true } rfl hh sched
  refine ⟨more, { p with stop := true }.run ((sched ++ more).map Event.work), ?_⟩
  simp only [ThreadPool.destructor, ThreadPool.joinAll, hm, if_true]

/-! ## Thread identities -/

theorem fresh_tid_lt (tid n : Nat) : ∀ w ∈ fresh tid n, w.tid < tid + n := by
  induction n generalizing tid with
  | zero => simp [fresh]
  | succ n ih =>
    intro w hw
    simp only [fresh, List.mem_cons] at hw
    rcases hw with rfl | hw
    · simp
    · have := ih _ w hw
      omega

theorem shape_freshTids (p q : ThreadPool) (h : SameShape p q) (hp : FreshTids p) :
    FreshTids q := by
  unfold FreshTids
  rw [h.tids, h.nextTid]
  exact hp

theorem setNumThreads_freshTids (p q : ThreadPool) (k : Int) (sched : List Event)
    (hp : FreshTids p) (h : p.setNumThreads k sched = some q) : FreshTids q := by
  rcases Nat.lt_trichotomy (clamp k) p.threads.length with hlt | heq | hgt
  · obtain ⟨-, rfl⟩ := setNumThreads_shrink p q k sched hlt h
    intro t ht
    obtain ⟨w, hw, rfl⟩ := List.mem_map.mp ht
    exact fresh_tid_lt _ _ w hw
  · rw [setNumThreads_equal p k sched heq] at h
    rw [← Option.some.inj h]
    exact hp
  · rw [grow_branch_eq p k sched hgt] at h
    rw [← Option.some.inj h, spawnN_eq]
    intro t ht
    obtain ⟨w, hw, rfl⟩ := List.mem_map.mp ht
    rcases List.mem_append.mp hw with hw | hw
    · have := hp w.tid (List.mem_map.mpr ⟨w, hw, rfl⟩)
      simp only
      omega
    · exact fresh_tid_lt _ _ w hw

theorem apply_freshTids (p q : ThreadPool) (o : Op) (hp : FreshTids p)
    (h : p.apply o = some q) : FreshTids q := by
  cases o with
  | submit t =>
    rw [← Option.some.inj h]
    exact hp
  | work i =>
    simp only [ThreadPool.apply, Option.some.injEq] at h
    rw [← h]
    exact shape_freshTids _ _ (step_shape p (Event.work i)) hp
  | resize k sched => exact setNumThreads_freshTids p q k sched hp h

theorem runOps_freshTids (p q : ThreadPool) (ops : List Op) (hp : FreshTids p)
    (h : p.runOps ops = some q) : FreshTids q := by
  induction ops generalizing p with
  | nil =>
    rw [← Option.some.inj h]
    exact hp
  | cons o os ih =>
    rw [runOps_cons] at h
    cases ha : p.apply o with
    | none => simp [ha] at h
    | some r =>
      rw [ha] at h
      exact ih r (apply_freshTids p r o hp ha) h

theorem reachable_freshTids (p : ThreadPool) (h : Reachable p) : FreshTids p := by
  obtain ⟨n, ops, hr⟩ := h
  refine runOps_freshTids _ p ops ?_ hr
  intro t ht
  obtain ⟨w, hw, rfl⟩ := List.mem_map.mp ht
  have hw' : w ∈ fresh 0 (clamp n) := by
    simpa [ThreadPool.construct, spawnN_eq] using hw
  simpa [ThreadPool.construct, spawnN_eq] using fresh_tid_lt 0 (clamp n) w hw'

/-! ## Shutdown -/

/-- The state of a destructor that is through, in terms of the state it started from. -/
theorem destructor_result (p q : ThreadPool) (sched : List Nat) (hp : Reachable p)
    (h : p.destructor sched = some q) :
    q.tasks = [] ∧ inflight q.threads = [] ∧ q.executed.Perm p.submitted ∧
      q.submitted = p.submitted := by
  have hi := reachable_idle p hp
  have ht := destructor_tasks p q sched hi.size.1 hi.live h
  obtain ⟨-, hr⟩ := destructor_some p q sched h
  have hin := inflight_returned _ hr
  have hf := destructor_follows p q sched h
  have hl := hf.ledger
  have hql : q.ledger = q.executed := by simp [ThreadPool.ledger, ht, hin]
  rw [hql, List.append_nil] at hl
  exact ⟨ht, hin, hl.trans (reachable_logs p hp).2, by simpa using hf.submitted⟩

theorem demoPool_reachable : Reachable demoPool :=
  ⟨2, demoOps, by decide⟩

/-- C1: for every history of a constructed pool (submissions, worker steps, resizes, in any
interleaving) and every interleaving of worker steps during the destructor, when the destructor
is through the tasks called are a permutation of the tasks submitted: as many, and each as often
as it was submitted.  And when no task throws, every interleaving can be continued to one in
which the destructor gets through. -/
theorem shutdown_runs_each_task_once (p : ThreadPool) (hp : Reachable p) :
    (∀ sched q, p.destructor sched = some q →
      q.submitted = p.submitted ∧ q.executed.Perm p.submitted ∧
      q.executed.length = p.submitted.length ∧
      ∀ t, q.executed.count t = p.submitted.count t) ∧
    (p.healthy = true → ∀ sched, ∃ more q, p.destructor (sched ++ more) = some q ∧
      q.executed.Perm p.submitted) := by
  constructor
  · intro sched q hq
    obtain ⟨-, -, hperm, hsub⟩ := destructor_result p q sched hp hq
    exact ⟨hsub, hperm, hperm.length_eq, fun t => hperm.count_eq t⟩
  · intro hh sched
    obtain ⟨more, q, hq⟩ := destructor_returns p hh sched
    exact ⟨more, q, hq, (destructor_result p q _ hp hq).2.2.1⟩

theorem shutdown_runs_each_task_once_witness :
    demoPool.destructor [0, 0, 1, 1, 0] = some demoEnd ∧
    demoEnd.executed.Perm demoPool.submitted ∧
    demoEnd.executed.length = 3 :=
  ⟨by decide,
    ((shutdown_runs_each_task_once demoPool demoPool_reachable).1 [0, 0, 1, 1, 0] demoEnd
      (by decide)).2.1,
    by decide⟩

/-- C2: when the destructor (set `stop`, wake all, join all) is through on a reachable pool,
nothing being submitted meanwhile, the task queue is empty and every worker of the worker set
has returned; the worker set is the one the destructor started with.  And when no task throws,
every interleaving can be continued to one in which the destructor gets through. -/
theorem shutdown_drains (p : ThreadPool) (hp : Reachable p) :
    (∀ sched q, p.destructor sched = some q →
      q.tasks = [] ∧ (∀ w ∈ q.threads, w.status = Status.Returned) ∧
      q.threads.map Worker.tid = p.threads.map Worker.tid ∧ q.stop = true) ∧
    (p.healthy = true → ∀ sched, ∃ more q, p.destructor (sched ++ more) = some q) := by
  constructor
  · intro sched q hq
    obtain ⟨ht, -, -, -⟩ := destructor_result p q sched hp hq
    obtain ⟨hrun, hr⟩ := destructor_some p q sched hq
    have hsh := run_shape { p with stop := true } (sched.map Event.work)
    rw [← hrun] at hsh
    exact ⟨ht, hr, hsh.tids, hsh.stop⟩
  · intro hh sched
    exact destructor_returns p hh sched

theorem shutdown_drains_witness :
    demoPool.destructor [0, 0, 1, 1, 0] = some demoEnd ∧
    demoEnd.tasks = [] ∧ (∀ w ∈ demoEnd.threads, w.status = Status.Returned) :=
  ⟨by decide,
    ((shutdown_drains demoPool demoPool_reachable).1 [0, 0, 1, 1, 0] demoEnd (by decide)).1,
    ((shutdown_drains demoPool demoPool_reachable).1 [0, 0, 1, 1, 0] demoEnd (by decide)).2.1⟩

/-! ## Resizing -/

theorem setNumThreads_returns (p : ThreadPool) (k : Int) (hp : p.healthy = true)
    (sched : List Nat) :
    ∃ more q, p.setNumThreads k ((sched ++ more).map Event.work) = some q := by
  rcases Nat.lt_trichotomy (clamp k) p.threads.length with hlt | heq | hgt
  · have hh : p.shrinkStop.healthy = true := hp
    obtain ⟨more, hm⟩ := drain_extend p.shrinkStop rfl hh sched
    exact ⟨more, _, setNumThreads_shrink_returns p k _ hlt hm⟩
  · exact ⟨[], _, setNumThreads_equal p k _ heq⟩
  · exact ⟨[], _, grow_branch_eq p k _ hgt⟩

/-- C3: for every integer `k` and every pool, when `setNumThreads(k)` returns the worker set
holds exactly `max(1, min(k, 100))` workers, whichever branch ran; `setNumThreads(0)` leaves
exactly 1 worker and `setNumThreads(1000)` exactly 100.  The call returns at once when it does
not shrink, and when no task throws every interleaving of the workers can be continued to one
in which it returns. -/
theorem setNumThreads_count (p : ThreadPool) (k : Int) :
    (∀ sched q, p.setNumThreads k sched = some q →
      (q.threads.length : Int) = max 1 (min k 100)) ∧
    (∀ sched q, p.setNumThreads 0 sched = some q → q.threads.length = 1) ∧
    (∀ sched q, p.setNumThreads 1000 sched = some q → q.threads.length = 100) ∧
    (p.threads.length ≤ clamp k → ∀ sched, ∃ q, p.setNumThreads k sched = some q) ∧
    (p.healthy = true → ∀ sched : List Nat,
      ∃ more q, p.setNumThreads k ((sched ++ more).map Event.work) = some q) := by
  refine ⟨?_, ?_, ?_, ?_, ?_⟩
  · intro sched q h
    rw [setNumThreads_length p q k sched h]
    exact clamp_eq k
  · intro sched q h
    rw [setNumThreads_length p q 0 sched h]
    decide
  · intro sched q h
    rw [setNumThreads_length p q 1000 sched h]
    decide
  · intro hle sched
    rcases Nat.lt_or_ge p.threads.length (clamp k) with hgt | hge
    · exact ⟨_, grow_branch_eq p k sched hgt⟩
    · exact ⟨_, setNumThreads_equal p k sched (Nat.le_antisymm hge hle)⟩
  · intro hh sched
    exact setNumThreads_returns p k hh sched

theorem shrinkDemo_reachable : Reachable shrinkDemo :=
  ⟨3, [Op.submit ⟨1, false⟩], by decide⟩

theorem setNumThreads_count_witness :
    shrinkDemo.setNumThreads 2 shrinkSched = some shrinkEnd ∧
    (shrinkEnd.threads.length : Int) = max 1 (min 2 100) ∧
    (∃ q, shrinkDemo.setNumThreads 1000 [] = some q) :=
  ⟨by decide,
    (setNumThreads_count shrinkDemo 2).1 shrinkSched shrinkEnd (by decide),
    (setNumThreads_count shrinkDemo 1000).2.2.2.1 (by decide) []⟩

/-- C4, as stated, fails: on a pool of three workers `setNumThreads(2)` sets `stop` to true
(line 89), every worker returns and is joined, the first two included, and the two workers
present when the call returns are newly started threads, not the two that were there. -/
theorem shrink_survivors_counterexample :
    shrinkDemo.setNumThreads 2 shrinkSched = some shrinkEnd ∧
    shrinkDemo.shrinkStop.stop = true ∧
    (∀ w ∈ (shrinkDemo.shrinkStop.run shrinkSched).threads, w.status = Status.Returned) ∧
    shrinkEnd.threads ≠ shrinkDemo.threads.take 2 ∧
    (∀ w ∈ shrinkEnd.threads, w.tid ∉ shrinkDemo.threads.map Worker.tid) := by
  decide

/-- C4, amended: on a reachable pool with more than `k' = max(1, min(k, 100))` workers,
`setNumThreads(k)` sets `stop` to true, every worker of the set (the first `k'` too) returns and
is joined, the records after the first `k'` are erased, `stop` is set back to false and a new
thread is started in each of the `k'` records left: when the call returns there are exactly `k'`
workers, all newly started (taken before their first step), none of them a worker that was in
the set before the call, and `stop` is false. -/
theorem shrink_restarts_all (p q : ThreadPool) (k : Int) (sched : List Event)
    (hp : Reachable p) (hlt : clamp k < p.threads.length)
    (h : p.setNumThreads k sched = some q) :
    p.shrinkStop.stop = true ∧
    (p.shrinkStop.run sched).threads.map Worker.tid = p.threads.map Worker.tid ∧
    (∀ w ∈ (p.shrinkStop.run sched).threads, w.status = Status.Returned) ∧
    q = (((p.shrinkStop.run sched).shrinkErase (clamp k)).shrinkClear).shrinkRestart ∧
    q.threads.length = clamp k ∧
    (∀ w ∈ q.threads, w.status = Status.Waiting ∧ w.tid ∉ p.threads.map Worker.tid) ∧
    q.stop = false := by
  obtain ⟨hr, hq⟩ := setNumThreads_shrink p q k sched hlt h
  have hsh := run_shape p.shrinkStop sched
  refine ⟨rfl, hsh.tids, hr, by rw [shrink_tail_eq]; exact hq,
    setNumThreads_length p q k sched h, ?_, by rw [hq]; rfl⟩
  intro w hw
  rw [hq] at hw
  have hw' : w ∈ fresh p.nextTid (min (clamp k) (p.shrinkStop.run sched).threads.length) := by
    have := hsh.nextTid
    simp only [ThreadPool.afterShrink] at hw
    rw [this] at hw
    exact hw
  refine ⟨fresh_status _ _ w hw', fun hmem => ?_⟩
  have h₁ := fresh_tid _ _ w hw'
  have h₂ := reachable_freshTids p hp w.tid hmem
  omega

theorem shrink_restarts_all_witness :
    clamp 2 < shrinkDemo.threads.length ∧
    shrinkDemo.setNumThreads 2 shrinkSched = some shrinkEnd ∧
    shrinkEnd.threads.length = clamp 2 ∧ shrinkEnd.stop = false :=
  ⟨by decide, by decide,
    (shrink_restarts_all shrinkDemo shrinkEnd 2 shrinkSched shrinkDemo_reachable (by decide)
      (by decide)).2.2.2.2.1,
    (shrink_restarts_all shrinkDemo shrinkEnd 2 shrinkSched shrinkDemo_reachable (by decide)
      (by decide)).2.2.2.2.2.2⟩

/-- C7: for every integer `n` the constructor yields a pool with exactly
`max(1, min(n, 100))` workers, all at the top of their loop, an empty task queue and
`stop = false`. -/
theorem construct_spec (n : Int) :
    ((ThreadPool.construct n).threads.length : Int) = max 1 (min n 100) ∧
    (∀ w ∈ (ThreadPool.construct n).threads, w.status = Status.Waiting) ∧
    (ThreadPool.construct n).tasks = [] ∧
    (ThreadPool.construct n).stop = false := by
  refine ⟨?_, ?_, ?_, ?_⟩
  · simpa [ThreadPool.construct, spawnN_eq, fresh_length] using clamp_eq n
  · simpa [ThreadPool.construct, spawnN_eq] using fresh_status 0 (clamp n)
  · simp [ThreadPool.construct, spawnN_eq]
  · simp [ThreadPool.construct, spawnN_eq]

/-! ## The worker loop -/

theorem getElem?_set_same (l : List Worker) (i : Nat) (w w' : Worker) (h : l[i]? = some w) :
    (l.set i w')[i]? = some w' := by
  obtain ⟨hi, -⟩ := List.getElem?_eq_some.mp h
  exact List.getElem?_set_self hi

/-- C8, as stated, fails: in a reachable pool whose only worker holds a task that throws, the
call (line 39, no handler around it) takes the worker out of its loop; it is not back at the
top of the loop, it takes no further step, and the next queued task stays in the queue. -/
theorem raising_task_counterexample :
    Reachable crashDemo ∧
    crashDemo.workerStep 0 = some crashEnd ∧
    crashEnd.threads[0]? = some ⟨0, Status.Aborted⟩ ∧
    crashEnd.threads[0]? ≠ some ⟨0, Status.Waiting⟩ ∧
    crashEnd.workerStep 0 = none ∧
    crashEnd.tasks = [⟨2, false⟩] :=
  ⟨⟨1, [Op.submit ⟨1, true⟩, Op.submit ⟨2, false⟩, Op.work 0], by decide⟩, by decide, by decide,
    by decide, by decide, by decide⟩

/-- C8, amended: a worker that holds a task calls it; its record stays in the worker set, at
the same place.  When the call completes, the worker is back at the top of its loop and goes on
to pop the next queued task.  When the call throws, the exception leaves the worker loop: the
worker is out of its thread function and takes no further step. -/
theorem task_call_outcome (p : ThreadPool) (i : Nat) (w : Worker) (t : Task)
    (hw : p.threads[i]? = some w) (hs : w.status = Status.Holding t) :
    ∃ q, p.workerStep i = some q ∧
      q.executed = p.executed ++ [t] ∧ q.tasks = p.tasks ∧
      q.threads = p.threads.set i ⟨w.tid, afterCall t⟩ ∧
      q.threads.length = p.threads.length ∧
      (t.raises = false →
        q.threads[i]? = some ⟨w.tid, Status.Waiting⟩ ∧
        ∀ t' rest, q.tasks = t' :: rest →
          ∃ r, q.workerStep i = some r ∧ r.threads[i]? = some ⟨w.tid, Status.Holding t'⟩ ∧
            r.tasks = rest) ∧
      (t.raises = true →
        q.threads[i]? = some ⟨w.tid, Status.Aborted⟩ ∧ q.workerStep i = none) := by
  refine ⟨p.doCall i w t, workerStep_call p i w t hw hs, rfl, rfl, rfl, ?_, ?_, ?_⟩
  · simp [ThreadPool.doCall]
  · intro hr
    have hac : afterCall t = Status.Waiting := by simp [afterCall, hr]
    have hq : (p.doCall i w t).threads[i]? = some ⟨w.tid, Status.Waiting⟩ := by
      simp only [ThreadPool.doCall, hac]
      exact getElem?_set_same _ _ _ _ hw
    refine ⟨hq, ?_⟩
    intro t' rest htasks
    refine ⟨_, workerStep_claim _ i _ t' rest hq rfl htasks, ?_, rfl⟩
    simp only [ThreadPool.doClaim]
    exact getElem?_set_same _ _ _ _ hq
  · intro hr
    have hac : afterCall t = Status.Aborted := by simp [afterCall, hr]
    have hq : (p.doCall i w t).threads[i]? = some ⟨w.tid, Status.Aborted⟩ := by
      simp only [ThreadPool.doCall, hac]
      exact getElem?_set_same _ _ _ _ hw
    exact ⟨hq, workerStep_done _ i _ hq (Or.inr rfl)⟩

theorem task_call_outcome_witness :
    demoPool.threads[1]? = some ⟨1, Status.Holding ⟨2, false⟩⟩ ∧
    ∃ q, demoPool.workerStep 1 = some q ∧
      q.executed = demoPool.executed ++ [⟨2, false⟩] ∧ q.tasks = demoPool.tasks ∧
      q.threads = demoPool.threads.set 1 ⟨1, afterCall ⟨2, false⟩⟩ ∧
      q.threads.length = demoPool.threads.length ∧
      ((⟨2, false⟩ : Task).raises = false →
        q.threads[1]? = some ⟨1, Status.Waiting⟩ ∧
        ∀ t' rest, q.tasks = t' :: rest →
          ∃ r, q.workerStep 1 = some r ∧ r.threads[1]? = some ⟨1, Status.Holding t'⟩ ∧
            r.tasks = rest) ∧
      ((⟨2, false⟩ : Task).raises = true →
        q.threads[1]? = some ⟨1, Status.Aborted⟩ ∧ q.workerStep 1 = none) :=
  ⟨by decide, task_call_outcome demoPool 1 ⟨1, Status.Holding ⟨2, false⟩⟩ ⟨2, false⟩
    (by decide) rfl⟩

/-- C9, as stated, fails: in a reachable pool with `stop` false and a non-empty queue whose
head throws, the waiting worker pops the head and calls it, and the call (line 39, no handler)
takes the worker out of its loop: it does not stay Running, it is not back at the top of the
loop and it takes no further step. -/
theorem wake_step_counterexample :
    Reachable wakeDemo ∧
    wakeDemo.threads[0]? = some ⟨0, Status.Waiting⟩ ∧
    wakeDemo.stop = false ∧ wakeDemo.tasks = [⟨1, true⟩] ∧
    wakeDemo.workerStep 0 = some wakeHeld ∧
    wakeHeld.workerStep 0 = some wakeEnd ∧
    wakeEnd.executed = [⟨1, true⟩] ∧
    wakeEnd.threads[0]? = some ⟨0, Status.Aborted⟩ ∧
    wakeEnd.threads[0]? ≠ some ⟨0, Status.Waiting⟩ ∧
    wakeEnd.workerStep 0 = none :=
  ⟨⟨1, [Op.submit ⟨1, true⟩], by decide⟩, by decide, by decide, by decide, by decide, by decide,
    by decide, by decide, by decide, by decide⟩

/-- C9, amended: what a worker at the top of its loop does is decided by `stop` and the queue
alone.  It returns (and only its own record changes) exactly when `stop` is true and the queue
is empty.  Whenever the queue is not empty, whatever `stop` is, it pops exactly the head, the
rest of the queue stays in order, it holds that task (it has not returned), and its next step
calls exactly that task; it then stays Running, back at the top of the loop, when the call
completes, and is out of its loop by the exception when the call throws.  With `stop` false and
the queue empty it stays blocked and nothing changes. -/
theorem worker_wake_step (p : ThreadPool) (i : Nat) (w : Worker)
    (hw : p.threads[i]? = some w) (hs : w.status = Status.Waiting) :
    ((∃ q, p.workerStep i = some q ∧ q.threads[i]? = some ⟨w.tid, Status.Returned⟩) ↔
      (p.stop = true ∧ p.tasks = [])) ∧
    (p.stop = true → p.tasks = [] →
      p.workerStep i = some { p with threads := p.threads.set i ⟨w.tid, Status.Returned⟩ }) ∧
    (∀ t rest, p.tasks = t :: rest →
      ∃ q, p.workerStep i = some q ∧
        q = { p with
              tasks := rest
              claimed := p.claimed ++ [t]
              threads := p.threads.set i ⟨w.tid, Status.Holding t⟩ } ∧
        ∃ r, q.workerStep i = some r ∧
          r.executed = p.executed ++ [t] ∧ r.tasks = rest ∧
          r.threads = p.threads.set i ⟨w.tid, afterCall t⟩ ∧
          (t.raises = false → r.threads[i]? = some ⟨w.tid, Status.Waiting⟩) ∧
          (t.raises = true →
            r.threads[i]? = some ⟨w.tid, Status.Aborted⟩ ∧ r.workerStep i = none)) ∧
    (p.stop = false → p.tasks = [] → p.workerStep i = none) := by
  refine ⟨⟨?_, ?_⟩, ?_, ?_, ?_⟩
  · rintro ⟨q, hq, hst⟩
    obtain ⟨w', hw', hc⟩ := workerStep_cases p q i hq
    rw [hw] at hw'
    obtain rfl := Option.some.inj hw'
    rcases hc with ⟨-, hstop, hempty, -⟩ | ⟨-, t, rest, -, rfl⟩ | ⟨t, hh, -⟩
    · exact ⟨hstop, hempty⟩
    · simp only [ThreadPool.doClaim] at hst
      rw [getElem?_set_same _ _ _ _ hw] at hst
      simp at hst
    · rw [hs] at hh
      cases hh
  · rintro ⟨hstop, hempty⟩
    refine ⟨_, workerStep_return p i w hw hs hstop hempty, ?_⟩
    simp only [ThreadPool.doReturn]
    exact getElem?_set_same _ _ _ _ hw
  · intro hstop hempty
    exact workerStep_return p i w hw hs hstop hempty
  · intro t rest htasks
    have hq : (p.doClaim i w t rest).threads[i]? = some ⟨w.tid, Status.Holding t⟩ := by
      simp only [ThreadPool.doClaim]
      exact getElem?_set_same _ _ _ _ hw
    refine ⟨_, workerStep_claim p i w t rest hw hs htasks, rfl, _,
      workerStep_call _ i _ t hq rfl, rfl, rfl, ?_, ?_, ?_⟩
    · simp [ThreadPool.doCall, ThreadPool.doClaim, List.set_set]
    · intro hr
      have hac : afterCall t = Status.Waiting := by simp [afterCall, hr]
      simp only [ThreadPool.doCall, hac]
      exact getElem?_set_same _ _ _ _ hq
    · intro hr
      have hac : afterCall t = Status.Aborted := by simp [afterCall, hr]
      have hr' : ((p.doClaim i w t rest).doCall i ⟨w.tid, Status.Holding t⟩ t).threads[i]? =
          some ⟨w.tid, Status.Aborted⟩ := by
        simp only [ThreadPool.doCall, hac]
        exact getElem?_set_same _ _ _ _ hq
      exact ⟨hr', workerStep_done _ i _ hr' (Or.inr rfl)⟩
  · intro hstop hempty
    exact workerStep_blocked p i w hw hs hstop hempty

theorem worker_wake_step_witness :
    demoPool.threads[0]? = some ⟨0, Status.Waiting⟩ ∧
    ∃ q, demoPool.workerStep 0 = some q ∧
      q = { demoPool with
            tasks := []
            claimed := demoPool.claimed ++ [⟨3, false⟩]
            threads := demoPool.threads.set 0 ⟨0, Status.Holding ⟨3, false⟩⟩ } ∧
      ∃ r, q.workerStep 0 = some r ∧
        r.executed = demoPool.executed ++ [⟨3, false⟩] ∧ r.tasks = [] ∧
        r.threads = demoPool.threads.set 0 ⟨0, afterCall ⟨3, false⟩⟩ ∧
        ((⟨3, false⟩ : Task).raises = false → r.threads[0]? = some ⟨0, Status.Waiting⟩) ∧
        ((⟨3, false⟩ : Task).raises = true →
          r.threads[0]? = some ⟨0, Status.Aborted⟩ ∧ r.workerStep 0 = none) :=
  ⟨by decide,
    (worker_wake_step demoPool 0 ⟨0, Status.Waiting⟩ (by decide) rfl).2.2.1 ⟨3, false⟩ []
      (by decide)⟩

/-! ## Order -/

/-- C10: `enqueue` puts the task at the tail of the queue, which grows by exactly one; and
after every history of a constructed pool (submissions, worker steps and resizes in any
interleaving) the tasks in the order the workers popped them are an initial segment of the
tasks in the order they were submitted, the queue being the rest, in that order. -/
theorem fifo_order (p : ThreadPool) (t : Task) (hp : Reachable p) :
    (p.enqueue t).tasks = p.tasks ++ [t] ∧
    (p.enqueue t).tasks.length = p.tasks.length + 1 ∧
    (p.enqueue t).submitted = p.submitted ++ [t] ∧
    p.claimed <+: p.submitted ∧
    p.submitted = p.claimed ++ p.tasks := by
  have h := (reachable_logs p hp).1
  exact ⟨rfl, by simp [ThreadPool.enqueue], rfl, ⟨p.tasks, h.symm⟩, h⟩

theorem fifo_order_witness :
    Reachable demoPool ∧ demoPool.claimed <+: demoPool.submitted ∧
    demoPool.submitted = demoPool.claimed ++ demoPool.tasks :=
  ⟨demoPool_reachable, (fifo_order demoPool ⟨9, false⟩ demoPool_reachable).2.2.2.1,
    (fifo_order demoPool ⟨9, false⟩ demoPool_reachable).2.2.2.2⟩

end TPool
